import Mathlib

/-!
Verification of the `wasm-core` computational library (`src/lib.rs`).

The library exposes three pure operations over 64-bit floats and strings:
`normalize_metric_series`, `correlate_metric_series` and
`shape_resource_status`.  We shallowly embed the float operations with an
idealised IEEE-754 value type `F`: `nan`, the two infinities, and finite
values carried as exact rationals.  The special-value propagation rules of
`+`, `-`, `*`, `/`, `abs`, `min`, `max`, `clamp` and the comparison
operators follow IEEE semantics and the Rust standard library exactly, and
finite arithmetic overflows to the signed infinity as soon as the exact
result's magnitude exceeds `f64::MAX` (rounding strictly below the
overflow threshold is idealised away: in that regime the model keeps the
exact rational where the hardware would round, and the half-ulp band at
`MAX` where IEEE still rounds down to `MAX` is treated as overflow; no
statement in this development depends on that band).
-/

/-- Idealised IEEE-754 double: `nan`, the infinities, and exact finite
values. -/
inductive F where
  | finite (q : ℚ)
  | posInf
  | negInf
  | nan
deriving DecidableEq, Repr

/-- `f64::MAX = (2 - 2⁻⁵²) * 2¹⁰²³ = (2⁵³ - 1) * 2⁹⁷¹`, the largest finite
double. -/
def maxF : ℚ := (2 ^ 53 - 1) * 2 ^ 971

namespace F

/-- Injection of an exact rational result of a finite-operand operation
into the embedded doubles: magnitudes beyond `f64::MAX` overflow to the
signed infinity, everything else stays exact. -/
def ofRat (r : ℚ) : F :=
  if maxF < |r| then (if r < 0 then negInf else posInf) else finite r

/-- IEEE strict `<` on doubles: any comparison with `nan` is `false`. -/
def lt : F → F → Bool
  | nan, _ => false
  | _, nan => false
  | negInf, negInf => false
  | negInf, _ => true
  | _, negInf => false
  | posInf, _ => false
  | finite _, posInf => true
  | finite a, finite b => decide (a < b)

/-- IEEE `<=` on doubles: any comparison with `nan` is `false`. -/
def le : F → F → Bool
  | nan, _ => false
  | _, nan => false
  | negInf, _ => true
  | _, negInf => false
  | _, posInf => true
  | posInf, _ => false
  | finite a, finite b => decide (a ≤ b)

/-- `f64::min` (IEEE `minNum`): if one argument is `nan` the other is
returned; otherwise the smaller argument. -/
def min (a b : F) : F :=
  if a = nan then b
  else if b = nan then a
  else if le a b then a else b

/-- `f64::max` (IEEE `maxNum`): if one argument is `nan` the other is
returned; otherwise the larger argument. -/
def max (a b : F) : F :=
  if a = nan then b
  else if b = nan then a
  else if le a b then b else a

/-- IEEE addition on the embedded doubles; a finite sum overflows to the
signed infinity past `f64::MAX`. -/
def add : F → F → F
  | nan, _ => nan
  | _, nan => nan
  | posInf, negInf => nan
  | negInf, posInf => nan
  | posInf, _ => posInf
  | _, posInf => posInf
  | negInf, _ => negInf
  | _, negInf => negInf
  | finite a, finite b => ofRat (a + b)

/-- IEEE subtraction on the embedded doubles; a finite difference overflows
to the signed infinity past `f64::MAX`. -/
def sub : F → F → F
  | nan, _ => nan
  | _, nan => nan
  | posInf, posInf => nan
  | negInf, negInf => nan
  | posInf, _ => posInf
  | negInf, _ => negInf
  | _, posInf => negInf
  | _, negInf => posInf
  | finite a, finite b => ofRat (a - b)

/-- IEEE multiplication on the embedded doubles (`0 * inf = nan`); a finite
product overflows to the signed infinity past `f64::MAX`. -/
def mul : F → F → F
  | nan, _ => nan
  | _, nan => nan
  | finite a, finite b => ofRat (a * b)
  | finite a, posInf => if 0 < a then posInf else if a < 0 then negInf else nan
  | finite a, negInf => if 0 < a then negInf else if a < 0 then posInf else nan
  | posInf, finite b => if 0 < b then posInf else if b < 0 then negInf else nan
  | negInf, finite b => if 0 < b then negInf else if b < 0 then posInf else nan
  | posInf, posInf => posInf
  | posInf, negInf => negInf
  | negInf, posInf => negInf
  | negInf, negInf => posInf

/-- IEEE division on the embedded doubles (`inf / inf = nan`,
`x / 0` is a signed infinity for `x ≠ 0`, `0 / 0 = nan`; the model has a
single unsigned zero, treated as `+0`); a finite quotient overflows to the
signed infinity past `f64::MAX`. -/
def div : F → F → F
  | nan, _ => nan
  | _, nan => nan
  | posInf, posInf => nan
  | posInf, negInf => nan
  | negInf, posInf => nan
  | negInf, negInf => nan
  | posInf, finite b => if b < 0 then negInf else posInf
  | negInf, finite b => if b < 0 then posInf else negInf
  | finite _, posInf => finite 0
  | finite _, negInf => finite 0
  | finite a, finite b =>
      if b = 0 then (if a = 0 then nan else if a < 0 then negInf else posInf)
      else ofRat (a / b)

/-- `f64::abs`. -/
def abs : F → F
  | nan => nan
  | posInf => posInf
  | negInf => posInf
  | finite a => finite |a|

/-- `f64::clamp(lo, hi)` as implemented in the Rust standard library:
`if self < lo { lo } else if self > hi { hi } else { self }`; a `nan`
receiver falls through both comparisons and is returned unchanged. -/
def clamp (x lo hi : F) : F :=
  if lt x lo then lo else if lt hi x then hi else x

/-- Floor-based rational stand-in for `f64::sqrt` on finite values (the
exact IEEE square root of a rational is irrational in general).  The
development only ever relies on the IEEE special-value rules (`nan` for
negative arguments and `nan`, `+inf` passed through) and on the sign and
finiteness of the result, never on its magnitude. -/
def sqrt : F → F
  | nan => nan
  | posInf => posInf
  | negInf => nan
  | finite q =>
      if q < 0 then nan
      else finite ((Nat.sqrt q.num.toNat : ℚ) / (Nat.sqrt q.den : ℚ))

end F

/-- `f64::EPSILON = 2⁻⁵²`, the machine epsilon of an IEEE double. -/
def epsQ : ℚ := 1 / 2 ^ 52

/-- `f64::EPSILON` as an embedded double. -/
def epsF : F := F.finite epsQ

/-- `input.iter().fold(f64::INFINITY, |acc, value| acc.min(*value))`. -/
def minFold (l : List F) : F := l.foldl F.min F.posInf

/-- `input.iter().fold(f64::NEG_INFINITY, |acc, value| acc.max(*value))`. -/
def maxFold (l : List F) : F := l.foldl F.max F.negInf

/-- `iter().sum::<f64>()`: left fold of IEEE addition starting from `0.0`. -/
def sumF (l : List F) : F := l.foldl F.add (F.finite 0)

/-- Core of `normalize_metric_series` (`src/lib.rs`, after boundary
decoding): min-max rescaling with the all-(near-)equal fallback to zeros. -/
def normalize_metric_series (input : List F) : List F :=
  if input = [] then []
  else
    let mn := minFold input
    let mx := maxFold input
    if F.lt (F.abs (F.sub mx mn)) epsF then
      List.replicate input.length (F.finite 0)
    else
      input.map (fun v => F.div (F.sub v mn) (F.sub mx mn))

/-- One step of the correlation accumulation loop: given the two means and
the running `(numerator, left_sq, right_sq)` triple, fold in one aligned
pair of elements exactly as the `for (l, r)` loop body does. -/
def corrStep (lm rm : F) (acc : F × F × F) (p : F × F) : F × F × F :=
  (F.add acc.1 (F.mul (F.sub p.1 lm) (F.sub p.2 rm)),
   F.add acc.2.1 (F.mul (F.sub p.1 lm) (F.sub p.1 lm)),
   F.add acc.2.2 (F.mul (F.sub p.2 rm) (F.sub p.2 rm)))

/-- The correlation loop: accumulates `(numerator, left_sq, right_sq)` over
the zipped input pair, all three seeded with `0.0`. -/
def corrAccum (lm rm : F) (pairs : List (F × F)) : F × F × F :=
  pairs.foldl (corrStep lm rm) (F.finite 0, F.finite 0, F.finite 0)

/-- The `(numerator, left_sq, right_sq)` triple computed by
`correlate_metric_series` after its guard: both means divide by
`left_values.len()` (the code computes `n` from the left series; the guard
has already forced the lengths equal). -/
def corrStats (l r : List F) : F × F × F :=
  corrAccum (F.div (sumF l) (F.finite (l.length : ℚ)))
            (F.div (sumF r) (F.finite (l.length : ℚ)))
            (l.zip r)

/-- Core of `correlate_metric_series` (`src/lib.rs`, after boundary
decoding): Pearson correlation with the empty/length-mismatch and
zero-variance fallbacks to `0.0` and the final clamp to `[-1, 1]`. -/
def correlate_metric_series (l r : List F) : F :=
  if l = [] ∨ r = [] ∨ l.length ≠ r.length then F.finite 0
  else
    let s := corrStats l r
    if F.le s.2.1 epsF || F.le s.2.2 epsF then F.finite 0
    else
      F.clamp (F.div s.1 (F.mul (F.sqrt s.2.1) (F.sqrt s.2.2)))
        (F.finite (-1)) (F.finite 1)

/-- Does `pat` occur at the head of `hay`?  (List-of-chars analogue of the
starts-with test used by substring search.) -/
def leadsWith : List Char → List Char → Bool
  | [], _ => true
  | _ :: _, [] => false
  | a :: as, b :: bs => a == b && leadsWith as bs

/-- Rust `str::contains(pat)` on lists of characters: `pat` occurs
contiguously somewhere in `hay`. -/
def containsPat (hay pat : List Char) : Bool :=
  match hay with
  | [] => leadsWith pat []
  | _ :: t => leadsWith pat hay || containsPat t pat

/-- `str::eq_ignore_ascii_case`: equality after ASCII lower-casing both
sides (`Char.toLower` lowers exactly the basic latin letters). -/
def eqIgnoreAsciiCase (a b : List Char) : Bool :=
  a.map Char.toLower == b.map Char.toLower

/-- `shape_resource_status` (`src/lib.rs`): lower-cases the status, then
runs the pod or non-pod chain of substring tests, first match wins.
The `status.to_lowercase()` call is modelled with ASCII lower-casing
(`Char.toLower`); all match patterns are basic latin. -/
def shape_resource_status (kind status : String) : String :=
  let normalized := status.data.map Char.toLower
  if eqIgnoreAsciiCase kind.data "pod".data then
    if containsPat normalized "running".data then "running"
    else if containsPat normalized "pending".data then "pending"
    else if containsPat normalized "failed".data || containsPat normalized "error".data then
      "error"
    else "warning"
  else
    if containsPat normalized "error".data || containsPat normalized "crash".data then "error"
    else if containsPat normalized "pending".data then "pending"
    else if containsPat normalized "running".data || containsPat normalized "ready".data then
      "running"
    else "warning"

/-- The spec's pod-branch rule table (§4.3): ordered list of
(patterns, label) rows, first matching row wins. -/
def podTable : List (List (List Char) × String) :=
  [(["running".data], "running"),
   (["pending".data], "pending"),
   (["failed".data, "error".data], "error")]

/-- The spec's non-pod rule table (§4.3), with its different order and
vocabulary. -/
def nonPodTable : List (List (List Char) × String) :=
  [(["error".data, "crash".data], "error"),
   (["pending".data], "pending"),
   (["running".data, "ready".data], "running")]

/-- Apply an ordered rule table to a lower-cased status: the label of the
first row one of whose patterns occurs in the status, else `"warning"`. -/
def applyTable (normalized : List Char) : List (List (List Char) × String) → String
  | [] => "warning"
  | (pats, lbl) :: rest =>
      if pats.any (fun p => containsPat normalized p) then lbl
      else applyTable normalized rest

/-- The classifier exactly as the spec words it (§4.3, modelled per §9 as
two explicit ordered rule tables): lower-case the status, pick the table by
case-insensitive comparison of the kind with `"pod"`, apply the table. -/
def classifySpec (kind status : String) : String :=
  applyTable (status.data.map Char.toLower)
    (if eqIgnoreAsciiCase kind.data "pod".data then podTable else nonPodTable)

/-- Boundary adapter of `correlate_metric_series`: each host value either
fails to decode (carrying the decoder's failure description) or yields a
numeric series.  The `?` operator decodes the left input first; its error
message is prefixed `"Invalid left input: "`, the right one
`"Invalid right input: "`. -/
def correlate_boundary (left right : Sum String (List F)) : Except String F :=
  match left with
  | Sum.inl e => Except.error ("Invalid left input: " ++ e)
  | Sum.inr lv =>
      match right with
      | Sum.inl e => Except.error ("Invalid right input: " ++ e)
      | Sum.inr rv => Except.ok (correlate_metric_series lv rv)

/-! ### Basic facts about the embedded float operations -/

theorem F.min_nan_right (a : F) : F.min a F.nan = a := by
  by_cases h : a = F.nan <;> simp [F.min, h]

theorem F.max_nan_right (a : F) : F.max a F.nan = a := by
  by_cases h : a = F.nan <;> simp [F.max, h]

theorem F.min_finite (a b : ℚ) : F.min (F.finite a) (F.finite b) = F.finite (Min.min a b) := by
  by_cases h : a ≤ b <;> simp [F.min, F.le, h, min_def]

theorem F.max_finite (a b : ℚ) : F.max (F.finite a) (F.finite b) = F.finite (Max.max a b) := by
  by_cases h : a ≤ b <;> simp [F.max, F.le, h, max_def]

theorem F.add_comm (a b : F) : F.add a b = F.add b a := by
  cases a <;> cases b <;> simp [F.add, Rat.add_comm]

theorem F.mul_comm (a b : F) : F.mul a b = F.mul b a := by
  cases a <;> cases b <;> simp [F.mul, Rat.mul_comm]

theorem F.ofRat_small (r : ℚ) (h : |r| ≤ maxF) : F.ofRat r = F.finite r := by
  simp [F.ofRat, not_lt.2 h]

theorem F.add_finite (a b : ℚ) : F.add (F.finite a) (F.finite b) = F.ofRat (a + b) := rfl

theorem F.sub_finite (a b : ℚ) : F.sub (F.finite a) (F.finite b) = F.ofRat (a - b) := rfl

theorem F.mul_finite (a b : ℚ) : F.mul (F.finite a) (F.finite b) = F.ofRat (a * b) := rfl

theorem F.div_finite_small (a n : ℚ) (hn : n ≠ 0) (h : |a / n| ≤ maxF) :
    F.div (F.finite a) (F.finite n) = F.finite (a / n) := by
  simp [F.div, hn, F.ofRat, not_lt.2 h]

/-! ### Rational fold-min/fold-max facts -/

theorem foldl_min_le_init (a : ℚ) (l : List ℚ) : List.foldl Min.min a l ≤ a := by
  induction l generalizing a with
  | nil => exact le_refl a
  | cons x t ih => exact le_trans (ih (Min.min a x)) (min_le_left a x)

theorem foldl_min_le_mem (a x : ℚ) (l : List ℚ) (hx : x ∈ l) :
    List.foldl Min.min a l ≤ x := by
  induction l generalizing a with
  | nil => cases hx
  | cons y t ih =>
      rcases List.mem_cons.1 hx with h | h
      · subst h
        exact le_trans (foldl_min_le_init (Min.min a x) t) (min_le_right a x)
      · exact ih (Min.min a y) h

theorem foldl_min_mem (a : ℚ) (l : List ℚ) :
    List.foldl Min.min a l = a ∨ List.foldl Min.min a l ∈ l := by
  induction l generalizing a with
  | nil => exact Or.inl rfl
  | cons x t ih =>
      rcases ih (Min.min a x) with h | h
      · rcases min_choice a x with hc | hc
        · exact Or.inl (by rw [List.foldl_cons, h, hc])
        · exact Or.inr (by rw [List.foldl_cons, h, hc]; exact List.mem_cons_self x t)
      · exact Or.inr (List.mem_cons_of_mem x h)

theorem init_le_foldl_max (a : ℚ) (l : List ℚ) : a ≤ List.foldl Max.max a l := by
  induction l generalizing a with
  | nil => exact le_refl a
  | cons x t ih => exact le_trans (le_max_left a x) (ih (Max.max a x))

theorem mem_le_foldl_max (a x : ℚ) (l : List ℚ) (hx : x ∈ l) :
    x ≤ List.foldl Max.max a l := by
  induction l generalizing a with
  | nil => cases hx
  | cons y t ih =>
      rcases List.mem_cons.1 hx with h | h
      · subst h
        exact le_trans (le_max_right a x) (init_le_foldl_max (Max.max a x) t)
      · exact ih (Max.max a y) h

theorem foldl_max_mem (a : ℚ) (l : List ℚ) :
    List.foldl Max.max a l = a ∨ List.foldl Max.max a l ∈ l := by
  induction l generalizing a with
  | nil => exact Or.inl rfl
  | cons x t ih =>
      rcases ih (Max.max a x) with h | h
      · rcases max_choice a x with hc | hc
        · exact Or.inl (by rw [List.foldl_cons, h, hc])
        · exact Or.inr (by rw [List.foldl_cons, h, hc]; exact List.mem_cons_self x t)
      · exact Or.inr (List.mem_cons_of_mem x h)

/-! ### The min/max folds on embedded finite series -/

theorem foldl_Fmin_finite (a : ℚ) (qs : List ℚ) :
    (qs.map F.finite).foldl F.min (F.finite a) = F.finite (List.foldl Min.min a qs) := by
  induction qs generalizing a with
  | nil => rfl
  | cons x t ih => simp [List.foldl_cons, F.min_finite, ih]

theorem foldl_Fmax_finite (a : ℚ) (qs : List ℚ) :
    (qs.map F.finite).foldl F.max (F.finite a) = F.finite (List.foldl Max.max a qs) := by
  induction qs generalizing a with
  | nil => rfl
  | cons x t ih => simp [List.foldl_cons, F.max_finite, ih]

theorem minFold_map_finite (q0 : ℚ) (rest : List ℚ) :
    minFold ((q0 :: rest).map F.finite) = F.finite (List.foldl Min.min q0 rest) := by
  have h1 : F.min F.posInf (F.finite q0) = F.finite q0 := by simp [F.min, F.le]
  simp only [minFold, List.map_cons, List.foldl_cons, h1]
  exact foldl_Fmin_finite q0 rest

theorem maxFold_map_finite (q0 : ℚ) (rest : List ℚ) :
    maxFold ((q0 :: rest).map F.finite) = F.finite (List.foldl Max.max q0 rest) := by
  have h1 : F.max F.negInf (F.finite q0) = F.finite q0 := by simp [F.max, F.le]
  simp only [maxFold, List.map_cons, List.foldl_cons, h1]
  exact foldl_Fmax_finite q0 rest

/-! ### NaN elements are ignored by the min/max folds -/

theorem foldl_skip_nan (f : F → F → F) (hf : ∀ a, f a F.nan = a) (s : List F) (acc : F) :
    s.foldl f acc = (s.filter (fun x => x ≠ F.nan)).foldl f acc := by
  induction s generalizing acc with
  | nil => rfl
  | cons x t ih =>
      by_cases hx : x = F.nan
      · subst hx
        simp only [List.foldl_cons, hf acc, List.filter_cons]
        simpa using ih acc
      · simp only [List.foldl_cons, List.filter_cons]
        have : (decide ¬x = F.nan) = true := by simpa using hx
        rw [this]
        simpa using ih (f acc x)

/-! ### Claim theorems: the NaN fold behaviour, the classifier examples,
the correlator fallbacks and the boundary adapter -/

/-- C2 (corrected): the claim states that any `NaN` element forces the
min/max folds back to their ±infinity seeds, but `f64::min`/`f64::max`
ignore a `NaN` operand.  The folds therefore compute min/max over the
non-`NaN` elements, and only an all-`NaN` series leaves the seeds. -/
theorem C2_minmax_fold_nan (s : List F) :
    minFold s = minFold (s.filter (fun x => x ≠ F.nan))
    ∧ maxFold s = maxFold (s.filter (fun x => x ≠ F.nan))
    ∧ ((∀ x ∈ s, x = F.nan) → minFold s = F.posInf ∧ maxFold s = F.negInf) := by
  refine ⟨foldl_skip_nan F.min F.min_nan_right s F.posInf,
    foldl_skip_nan F.max F.max_nan_right s F.negInf, ?_⟩
  intro h
  have hfil : s.filter (fun x => x ≠ F.nan) = [] := by
    rw [List.filter_eq_nil_iff]
    intro a ha
    simpa using h a ha
  constructor
  · show s.foldl F.min F.posInf = F.posInf
    rw [foldl_skip_nan F.min F.min_nan_right s F.posInf, hfil]
    rfl
  · show s.foldl F.max F.negInf = F.negInf
    rw [foldl_skip_nan F.max F.max_nan_right s F.negInf, hfil]
    rfl

/-- Witness for C2's amended statement at the all-`NaN` series `[NaN]`. -/
theorem C2_minmax_fold_nan_witness :
    minFold [F.nan] = F.posInf ∧ maxFold [F.nan] = F.negInf :=
  (C2_minmax_fold_nan [F.nan]).2.2 (by decide)

/-- Counterexample to C2 as stated: `[NaN, 0]` contains a `NaN`, yet the
min and max folds both evaluate to `0`, not to the ±infinity seeds. -/
theorem C2_counterexample :
    F.nan ∈ [F.nan, F.finite 0]
    ∧ minFold [F.nan, F.finite 0] = F.finite 0
    ∧ minFold [F.nan, F.finite 0] ≠ F.posInf
    ∧ maxFold [F.nan, F.finite 0] = F.finite 0
    ∧ maxFold [F.nan, F.finite 0] ≠ F.negInf := by decide

/-- Counterexample to C3 as stated: `classify("pod", "CrashLoopBackOff")`
does not return `error` — the lower-cased status contains none of
`"running"`, `"pending"`, `"failed"`, `"error"`. -/
theorem C3_counterexample : shape_resource_status "pod" "CrashLoopBackOff" ≠ "error" := by
  decide

/-- C3 (corrected): `classify("pod", "CrashLoopBackOff")` falls through the
whole pod chain and returns `warning`. -/
theorem C3_pod_crashloop : shape_resource_status "pod" "CrashLoopBackOff" = "warning" := by
  decide

/-- C7 (confirmed): `correlate` never fails — an empty input or a length
mismatch returns `0.0`; with non-empty equal-length inputs it returns `0.0`
whenever the accumulated `left_sq` or `right_sq` is `<=` machine epsilon;
in particular `correlate([7,7,7],[1,2,3]) = 0.0`. -/
theorem C7_correlate_fallbacks :
    (∀ l r : List F, (l = [] ∨ r = [] ∨ l.length ≠ r.length) →
        correlate_metric_series l r = F.finite 0)
    ∧ (∀ l r : List F, l ≠ [] → r ≠ [] → l.length = r.length →
        (F.le (corrStats l r).2.1 epsF || F.le (corrStats l r).2.2 epsF) = true →
        correlate_metric_series l r = F.finite 0)
    ∧ correlate_metric_series ([7, 7, 7].map F.finite) ([1, 2, 3].map F.finite)
        = F.finite 0 := by
  refine ⟨?_, ?_, ?_⟩
  · intro l r h
    simp only [correlate_metric_series, if_pos h]
  · intro l r h1 h2 h3 hsq
    have hg : ¬(l = [] ∨ r = [] ∨ l.length ≠ r.length) := by
      push_neg
      exact ⟨h1, h2, h3⟩
    simp only [correlate_metric_series, if_neg hg]
    rw [if_pos hsq]
  · norm_num [correlate_metric_series, corrStats, corrAccum, corrStep, sumF,
      F.add, F.sub, F.mul, F.div, F.le, F.ofRat, maxF, epsF, epsQ]

/-- Witness for C7 at the concrete empty-left input. -/
theorem C7_correlate_fallbacks_witness :
    correlate_metric_series [] [F.finite 1] = F.finite 0 :=
  C7_correlate_fallbacks.1 [] [F.finite 1] (Or.inl rfl)

/-- C9 (confirmed): the boundary decodes the left input first; a left
decode failure produces the left-side `DecodeError` message regardless of
the right input (so with two bad inputs the left error is reported), a
right failure the right-side message, and two successes the pure
correlation value. -/
theorem C9_boundary_decode_order :
    (∀ (e : String) (r : Sum String (List F)),
        correlate_boundary (Sum.inl e) r
          = Except.error ("Invalid left input: " ++ e))
    ∧ (∀ (lv : List F) (e : String),
        correlate_boundary (Sum.inr lv) (Sum.inl e)
          = Except.error ("Invalid right input: " ++ e))
    ∧ (∀ (lv rv : List F),
        correlate_boundary (Sum.inr lv) (Sum.inr rv)
          = Except.ok (correlate_metric_series lv rv)) :=
  ⟨fun _ _ => rfl, fun _ _ => rfl, fun _ _ => rfl⟩

/-- Counterexample to C10 as stated: for the single-element pair
`[NaN], [NaN]` the correlation is `NaN`, not `0.0` — the means are `NaN`,
so both squared deviations are `NaN`, the `<=` epsilon guards are false,
and the final clamp passes the `NaN` through. -/
theorem C10_counterexample :
    correlate_metric_series [F.nan] [F.nan] = F.nan
    ∧ correlate_metric_series [F.nan] [F.nan] ≠ F.finite 0 := by decide

/-! ### The classifier: code against the spec's rule tables -/

/-- C5 (confirmed): `shape_resource_status` lower-cases the status, picks
the branch by case-insensitive comparison of the kind with `"pod"`, and
applies exactly the spec's ordered substring rule tables, first match wins
(`classifySpec` is the spec-worded classifier); every input maps to one of
the four labels, and matching is substring containment, e.g. the status
`"not-running-anymore"` is classified `running`. -/
theorem C5_classifier_rules (kind status : String) :
    shape_resource_status kind status = classifySpec kind status
    ∧ (shape_resource_status kind status = "running"
        ∨ shape_resource_status kind status = "pending"
        ∨ shape_resource_status kind status = "error"
        ∨ shape_resource_status kind status = "warning")
    ∧ shape_resource_status "node" "not-running-anymore" = "running" := by
  refine ⟨?_, ?_, by decide⟩
  · by_cases hk : eqIgnoreAsciiCase kind.data "pod".data = true
    · simp [shape_resource_status, classifySpec, hk, applyTable, podTable,
        List.any_cons, List.any_nil, Bool.or_false]
    · simp [shape_resource_status, classifySpec, hk, applyTable, nonPodTable,
        List.any_cons, List.any_nil, Bool.or_false]
  · simp only [shape_resource_status]
    split_ifs <;> simp

/-! ### Symmetry of the correlator -/

theorem foldl_corrStep_swap (lm rm : F) (pairs : List (F × F)) :
    ∀ a b c : F,
      (pairs.map Prod.swap).foldl (corrStep rm lm) (a, c, b)
        = ((pairs.foldl (corrStep lm rm) (a, b, c)).1,
           (pairs.foldl (corrStep lm rm) (a, b, c)).2.2,
           (pairs.foldl (corrStep lm rm) (a, b, c)).2.1) := by
  induction pairs with
  | nil => intro a b c; rfl
  | cons p t ih =>
      intro a b c
      simp only [List.map_cons, List.foldl_cons]
      have hstep : corrStep rm lm (a, c, b) p.swap
          = ((corrStep lm rm (a, b, c) p).1, (corrStep lm rm (a, b, c) p).2.2,
             (corrStep lm rm (a, b, c) p).2.1) := by
        simp [corrStep, Prod.swap, F.mul_comm]
      rw [hstep]
      exact ih _ _ _

/-- C6 (confirmed): the correlator is symmetric — swapping the two decoded
series yields the same result.  The guard, the accumulation (up to the
swap of `left_sq`/`right_sq`), the epsilon test and the final quotient all
commute, because IEEE addition and multiplication are commutative. -/
theorem C6_correlate_symm (l r : List F) :
    correlate_metric_series l r = correlate_metric_series r l := by
  simp only [correlate_metric_series]
  by_cases hg : l = [] ∨ r = [] ∨ l.length ≠ r.length
  · have hg2 : r = [] ∨ l = [] ∨ r.length ≠ l.length := by tauto
    rw [if_pos hg, if_pos hg2]
  · have hg2 : ¬(r = [] ∨ l = [] ∨ r.length ≠ l.length) := by tauto
    have hlen : l.length = r.length := by
      push_neg at hg
      exact hg.2.2
    rw [if_neg hg, if_neg hg2]
    have hswap : corrStats r l
        = ((corrStats l r).1, (corrStats l r).2.2, (corrStats l r).2.1) := by
      unfold corrStats corrAccum
      rw [← List.zip_swap l r, ← hlen]
      exact foldl_corrStep_swap _ _ (l.zip r) (F.finite 0) (F.finite 0) (F.finite 0)
    rw [hswap]
    conv_rhs => rw [Bool.or_comm, F.mul_comm]

/-! ### Single-element series -/

/-- C10 (corrected): for single-element series `[x]`, `[y]` the correlation
is `0.0` provided at least one of the two values is a finite double (a
finite value in the `f64` range, i.e. of magnitude at most `f64::MAX`):
that side's squared deviation is exactly `0 <= EPSILON`, so the
zero-variance fallback fires.  (With two non-finite values both squared
deviations are `NaN`, the guards fail, and the result is `NaN` — see the
counterexample.) -/
theorem C10_single_element (x y : F)
    (h : (∃ q, x = F.finite q ∧ |q| ≤ maxF) ∨ (∃ q, y = F.finite q ∧ |q| ≤ maxF)) :
    correlate_metric_series [x] [y] = F.finite 0 := by
  have hg : ¬(([x] : List F) = [] ∨ ([y] : List F) = []
      ∨ ([x] : List F).length ≠ ([y] : List F).length) := by simp
  have hle : F.le (F.finite 0) epsF = true := by
    norm_num [F.le, epsF, epsQ]
  have h0 : ¬maxF < (0 : ℚ) := by norm_num [maxF]
  rcases h with ⟨q, rfl, hq⟩ | ⟨q, rfl, hq⟩
  · have hq2 : ¬maxF < |q| := not_lt.2 hq
    simp only [correlate_metric_series, if_neg hg]
    have hs : (corrStats [F.finite q] [y]).2.1 = F.finite 0 := by
      simp [corrStats, corrAccum, corrStep, sumF, F.add, F.div, F.sub, F.mul,
        F.ofRat, hq2, h0]
    rw [hs]
    simp [hle]
  · have hq2 : ¬maxF < |q| := not_lt.2 hq
    simp only [correlate_metric_series, if_neg hg]
    have hs : (corrStats [x] [F.finite q]).2.2 = F.finite 0 := by
      simp [corrStats, corrAccum, corrStep, sumF, F.add, F.div, F.sub, F.mul,
        F.ofRat, hq2, h0]
    rw [hs]
    simp [hle]

/-- Witness for C10's amended statement at `[2], [5]`. -/
theorem C10_single_element_witness :
    correlate_metric_series [F.finite 2] [F.finite 5] = F.finite 0 :=
  C10_single_element (F.finite 2) (F.finite 5) (Or.inl ⟨2, rfl, by norm_num [maxF]⟩)

/-! ### Finite-input evaluation of the correlator -/

theorem F.sqrt_finite_pos (q : ℚ) (hq : 0 < q) :
    ∃ s : ℚ, F.sqrt (F.finite q) = F.finite s ∧ 0 < s := by
  refine ⟨(Nat.sqrt q.num.toNat : ℚ) / (Nat.sqrt q.den : ℚ), ?_, ?_⟩
  · simp [F.sqrt, not_lt.2 hq.le]
  · apply div_pos
    · have hnum : 0 < q.num.toNat := by
        have := Rat.num_pos.2 hq
        omega
      exact_mod_cast Nat.cast_pos.2 (Nat.sqrt_pos.2 hnum)
    · exact_mod_cast Nat.cast_pos.2 (Nat.sqrt_pos.2 q.pos)

theorem clamp_unit (x : ℚ) :
    ∃ q : ℚ, F.clamp (F.finite x) (F.finite (-1)) (F.finite 1) = F.finite q
      ∧ -1 ≤ q ∧ q ≤ 1 := by
  unfold F.clamp
  by_cases h1 : x < -1
  · exact ⟨-1, by simp [F.lt, h1], le_refl _, by norm_num⟩
  · by_cases h2 : 1 < x
    · exact ⟨1, by simp [F.lt, h1, h2], by norm_num, le_refl _⟩
    · exact ⟨x, by simp [F.lt, h1, h2], not_lt.1 h1, not_lt.1 h2⟩

/-- C4 (corrected, positive part): whenever the accumulated
`(numerator, left_sq, right_sq)` triple of the correlation loop is finite
— i.e. the decoded elements are finite and neither the sums, means nor
the accumulation overflow — `correlate` returns a finite float in the
closed interval `[-1, 1]`: either one of the `0.0` fallbacks fires, or the
quotient over the positive square roots is clamped into `[-1, 1]` (a
square-root product or quotient that itself overflows still lands in
`[-1, 1]` through the `finite / inf = 0` rule and the clamp). -/
theorem C4_correlate_range (l r : List F) (N A B : ℚ)
    (hcs : corrStats l r = (F.finite N, F.finite A, F.finite B)) :
    ∃ q : ℚ, correlate_metric_series l r = F.finite q ∧ -1 ≤ q ∧ q ≤ 1 := by
  by_cases hg : l = [] ∨ r = [] ∨ l.length ≠ r.length
  · exact ⟨0, by simp only [correlate_metric_series, if_pos hg], by norm_num, by norm_num⟩
  · simp only [correlate_metric_series, if_neg hg, hcs]
    by_cases hsq : (F.le (F.finite A) epsF || F.le (F.finite B) epsF) = true
    · rw [if_pos hsq]
      exact ⟨0, rfl, by norm_num, by norm_num⟩
    · rw [if_neg hsq]
      have heps : (0 : ℚ) < epsQ := by norm_num [epsQ]
      simp only [Bool.or_eq_true, not_or, F.le, epsF, decide_eq_true_eq] at hsq
      have hA : 0 < A := lt_trans heps (not_le.1 hsq.1)
      have hB : 0 < B := lt_trans heps (not_le.1 hsq.2)
      obtain ⟨sA, hsA, hsApos⟩ := F.sqrt_finite_pos A hA
      obtain ⟨sB, hsB, hsBpos⟩ := F.sqrt_finite_pos B hB
      have hprodpos : 0 < sA * sB := mul_pos hsApos hsBpos
      rw [hsA, hsB, F.mul_finite]
      by_cases hov : maxF < |sA * sB|
      · have hmul : F.ofRat (sA * sB) = F.posInf := by
          simp [F.ofRat, hov, not_lt.2 hprodpos.le]
        rw [hmul]
        refine ⟨0, ?_, by norm_num, by norm_num⟩
        show F.clamp (F.div (F.finite N) F.posInf) (F.finite (-1)) (F.finite 1) = F.finite 0
        norm_num [F.clamp, F.div, F.lt]
      · rw [F.ofRat_small (sA * sB) (not_lt.1 hov)]
        by_cases hov2 : maxF < |N / (sA * sB)|
        · have hdiv : F.div (F.finite N) (F.finite (sA * sB))
              = if N / (sA * sB) < 0 then F.negInf else F.posInf := by
            simp [F.div, hprodpos.ne', F.ofRat, hov2]
          rw [hdiv]
          by_cases hsign : N / (sA * sB) < 0
          · rw [if_pos hsign]
            refine ⟨-1, ?_, le_refl _, by norm_num⟩
            norm_num [F.clamp, F.lt]
          · rw [if_neg hsign]
            refine ⟨1, ?_, by norm_num, le_refl _⟩
            norm_num [F.clamp, F.lt]
        · rw [F.div_finite_small N (sA * sB) hprodpos.ne' (not_lt.1 hov2)]
          exact clamp_unit (N / (sA * sB))

/-- Witness for C4 at `[1, 3]` against `[1, 3]`: the accumulated triple is
`(2, 2, 2)`, all finite, and the result is a finite float in `[-1, 1]`. -/
theorem C4_correlate_range_witness :
    corrStats [F.finite 1, F.finite 3] [F.finite 1, F.finite 3]
      = (F.finite 2, F.finite 2, F.finite 2)
    ∧ ∃ q : ℚ,
        correlate_metric_series [F.finite 1, F.finite 3] [F.finite 1, F.finite 3]
          = F.finite q ∧ -1 ≤ q ∧ q ≤ 1 := by
  have h : corrStats [F.finite 1, F.finite 3] [F.finite 1, F.finite 3]
      = (F.finite 2, F.finite 2, F.finite 2) := by
    norm_num [corrStats, corrAccum, corrStep, sumF, F.add, F.sub, F.mul, F.div,
      F.ofRat, maxF, abs_eq_max_neg, max_def]
  exact ⟨h, C4_correlate_range _ _ _ _ _ h⟩

/-- Counterexample to C4 as stated: `[+inf, 0]` against `[0, 1]` (a
non-finite element) yields `NaN` — the left mean is `+inf`, the left
squared deviations are `NaN`, the guards are false and the clamp passes
`NaN` through.  The all-finite input `[1e308, -1e308]` against itself also
yields `NaN`: each squared deviation `(1e308)²` overflows to `+inf`, the
guards are false, and the final quotient is `inf / inf = NaN` through the
clamp.  Neither result is a float in `[-1, 1]`. -/
theorem C4_counterexample :
    correlate_metric_series [F.posInf, F.finite 0] [F.finite 0, F.finite 1] = F.nan
    ∧ correlate_metric_series
        ([(10 : ℚ) ^ 308, -(10 : ℚ) ^ 308].map F.finite)
        ([(10 : ℚ) ^ 308, -(10 : ℚ) ^ 308].map F.finite) = F.nan
    ∧ (¬∃ q : ℚ,
        correlate_metric_series [F.posInf, F.finite 0] [F.finite 0, F.finite 1]
          = F.finite q ∧ -1 ≤ q ∧ q ≤ 1)
    ∧ (¬∃ q : ℚ,
        correlate_metric_series
            ([(10 : ℚ) ^ 308, -(10 : ℚ) ^ 308].map F.finite)
            ([(10 : ℚ) ^ 308, -(10 : ℚ) ^ 308].map F.finite)
          = F.finite q ∧ -1 ≤ q ∧ q ≤ 1) := by
  have h1 : correlate_metric_series [F.posInf, F.finite 0] [F.finite 0, F.finite 1]
      = F.nan := by
    have hgne : ¬(([F.posInf, F.finite 0] : List F) = []
        ∨ ([F.finite 0, F.finite 1] : List F) = []
        ∨ ([F.posInf, F.finite 0] : List F).length
            ≠ ([F.finite 0, F.finite 1] : List F).length) := by simp
    simp only [correlate_metric_series, if_neg hgne]
    norm_num [corrStats, corrAccum, corrStep, sumF, F.add, F.sub, F.mul, F.div,
      F.le, F.sqrt, F.clamp, F.lt, F.ofRat, maxF, abs_eq_max_neg, max_def, epsF, epsQ]
  have h2 : correlate_metric_series
      ([(10 : ℚ) ^ 308, -(10 : ℚ) ^ 308].map F.finite)
      ([(10 : ℚ) ^ 308, -(10 : ℚ) ^ 308].map F.finite) = F.nan := by
    simp only [List.map_cons, List.map_nil]
    have hgne2 : ¬(([F.finite ((10 : ℚ) ^ 308), F.finite (-(10 : ℚ) ^ 308)] : List F) = []
        ∨ ([F.finite ((10 : ℚ) ^ 308), F.finite (-(10 : ℚ) ^ 308)] : List F) = []
        ∨ ([F.finite ((10 : ℚ) ^ 308), F.finite (-(10 : ℚ) ^ 308)] : List F).length
            ≠ ([F.finite ((10 : ℚ) ^ 308), F.finite (-(10 : ℚ) ^ 308)] : List F).length) := by
      simp
    simp only [correlate_metric_series, if_neg hgne2]
    norm_num [corrStats, corrAccum, corrStep, sumF, F.add, F.sub, F.mul, F.div,
      F.le, F.sqrt, F.clamp, F.lt, F.ofRat, maxF, abs_eq_max_neg, max_def, epsF, epsQ]
  refine ⟨h1, h2, ?_, ?_⟩
  · rintro ⟨q, hq, -⟩
    rw [h1] at hq
    exact F.noConfusion hq
  · rintro ⟨q, hq, -⟩
    rw [h2] at hq
    exact F.noConfusion hq


/-! ### The normalizer on finite series -/

set_option maxRecDepth 4000 in
/-- Counterexample to C1 as stated: the series `[1e308, -1e308]` consists
of finite floats and its range `2e308` is far above machine epsilon, yet
`max - min` overflows to `+inf`, the near-equal guard (`inf < EPSILON`) is
false, and the element at the maximum's position becomes `inf / inf = NaN`:
the output is `[NaN, 0.0]`, which is not the element-wise transform, is not
contained in `[0, 1]`, and does not map the maximum's position to `1`. -/
theorem C1_counterexample :
    epsQ ≤ |List.foldl Max.max ((10 : ℚ) ^ 308) [-(10 : ℚ) ^ 308]
        - List.foldl Min.min ((10 : ℚ) ^ 308) [-(10 : ℚ) ^ 308]|
    ∧ normalize_metric_series ((((10 : ℚ) ^ 308) :: [-(10 : ℚ) ^ 308]).map F.finite)
        = [F.nan, F.finite 0]
    ∧ ¬(∀ x ∈ normalize_metric_series ((((10 : ℚ) ^ 308) :: [-(10 : ℚ) ^ 308]).map F.finite),
          ∃ q : ℚ, x = F.finite q ∧ 0 ≤ q ∧ q ≤ 1)
    ∧ (normalize_metric_series ((((10 : ℚ) ^ 308) :: [-(10 : ℚ) ^ 308]).map F.finite)).getD 0
          F.nan ≠ F.finite 1 := by
  have hout : normalize_metric_series ((((10 : ℚ) ^ 308) :: [-(10 : ℚ) ^ 308]).map F.finite)
      = [F.nan, F.finite 0] := by
    have hne : ((((10 : ℚ) ^ 308) :: [-(10 : ℚ) ^ 308]).map F.finite) ≠ [] := by simp
    have hminf := minFold_map_finite ((10 : ℚ) ^ 308) [-(10 : ℚ) ^ 308]
    have hmaxf := maxFold_map_finite ((10 : ℚ) ^ 308) [-(10 : ℚ) ^ 308]
    have hm : List.foldl Min.min ((10 : ℚ) ^ 308) [-(10 : ℚ) ^ 308] = -(10 : ℚ) ^ 308 := by
      norm_num [List.foldl, min_def]
    have hM : List.foldl Max.max ((10 : ℚ) ^ 308) [-(10 : ℚ) ^ 308] = (10 : ℚ) ^ 308 := by
      norm_num [List.foldl, max_def]
    rw [hm] at hminf
    rw [hM] at hmaxf
    have hsub : F.sub (F.finite ((10 : ℚ) ^ 308)) (F.finite (-(10 : ℚ) ^ 308))
        = F.posInf := by
      rw [F.sub_finite]
      norm_num [F.ofRat, maxF, abs_eq_max_neg, max_def]
    have hsub2 : F.sub (F.finite (-(10 : ℚ) ^ 308)) (F.finite (-(10 : ℚ) ^ 308))
        = F.finite 0 := by
      rw [F.sub_finite, show (-(10 : ℚ) ^ 308 - -(10 : ℚ) ^ 308) = 0 by ring]
      exact F.ofRat_small 0 (by norm_num [maxF])
    have hcond : ¬(F.lt (F.abs F.posInf) epsF = true) := by
      simp [F.abs, F.lt, epsF]
    simp only [List.map_cons, List.map_nil] at hne hminf hmaxf
    simp only [normalize_metric_series, List.map_cons, List.map_nil, if_neg hne,
      hminf, hmaxf, hsub, if_neg hcond, hsub2]
    rfl
  refine ⟨by norm_num [List.foldl, abs_eq_max_neg, max_def, min_def, epsQ], hout, ?_, ?_⟩
  · intro hall
    obtain ⟨q, hq, -, -⟩ := hall F.nan (by rw [hout]; exact List.mem_cons_self _ _)
    exact F.noConfusion hq
  · rw [hout]
    intro hq
    exact F.noConfusion (show F.nan = F.finite 1 from hq)

/-- C1 (corrected): on a non-empty series of finite values whose range is
at least machine epsilon AND small enough not to overflow
(`max - min <= f64::MAX`), `normalize` returns exactly the element-wise
transform `(v - min) / (max - min)` in input order and with the input's
length; every output element is a finite value in `[0, 1]`; the fold-min
and fold-max are attained in the input; and any position holding the
minimum maps to exactly `0`, any position holding the maximum to exactly
`1`. -/
theorem C1_normalize_finite (q0 : ℚ) (rest : List ℚ)
    (hrange : epsQ ≤ |List.foldl Max.max q0 rest - List.foldl Min.min q0 rest|)
    (hbound : List.foldl Max.max q0 rest - List.foldl Min.min q0 rest ≤ maxF) :
    normalize_metric_series ((q0 :: rest).map F.finite)
        = (q0 :: rest).map (fun v => F.finite
            ((v - List.foldl Min.min q0 rest)
              / (List.foldl Max.max q0 rest - List.foldl Min.min q0 rest)))
    ∧ (normalize_metric_series ((q0 :: rest).map F.finite)).length = (q0 :: rest).length
    ∧ (∀ x ∈ normalize_metric_series ((q0 :: rest).map F.finite),
        ∃ q : ℚ, x = F.finite q ∧ 0 ≤ q ∧ q ≤ 1)
    ∧ List.foldl Min.min q0 rest ∈ q0 :: rest
    ∧ List.foldl Max.max q0 rest ∈ q0 :: rest
    ∧ (∀ i, i < (q0 :: rest).length →
        (q0 :: rest).getD i 0 = List.foldl Min.min q0 rest →
        (normalize_metric_series ((q0 :: rest).map F.finite)).getD i F.nan = F.finite 0)
    ∧ (∀ i, i < (q0 :: rest).length →
        (q0 :: rest).getD i 0 = List.foldl Max.max q0 rest →
        (normalize_metric_series ((q0 :: rest).map F.finite)).getD i F.nan = F.finite 1) := by
  set m := List.foldl Min.min q0 rest with hm
  set M := List.foldl Max.max q0 rest with hM
  have hmle : ∀ x ∈ q0 :: rest, m ≤ x := by
    intro x hx
    rcases List.mem_cons.1 hx with h | h
    · rw [h]
      exact foldl_min_le_init q0 rest
    · exact foldl_min_le_mem q0 x rest h
  have hMge : ∀ x ∈ q0 :: rest, x ≤ M := by
    intro x hx
    rcases List.mem_cons.1 hx with h | h
    · rw [h]
      exact init_le_foldl_max q0 rest
    · exact mem_le_foldl_max q0 x rest h
  have hepspos : (0 : ℚ) < epsQ := by norm_num [epsQ]
  have hmM : m < M := by
    rcases lt_or_eq_of_le
        (le_trans (hmle q0 (List.mem_cons_self q0 rest)) (hMge q0 (List.mem_cons_self q0 rest)))
      with h | h
    · exact h
    · exfalso
      rw [← h, sub_self, abs_zero] at hrange
      exact absurd (lt_of_lt_of_le hepspos hrange) (lt_irrefl 0)
  have hd : M - m ≠ 0 := sub_ne_zero.2 hmM.ne'
  have hdpos : 0 < M - m := sub_pos.2 hmM
  have hne : (q0 :: rest).map F.finite ≠ [] := by simp
  have hminf := minFold_map_finite q0 rest
  have hmaxf := maxFold_map_finite q0 rest
  have hsubMm : F.sub (F.finite M) (F.finite m) = F.finite (M - m) := by
    rw [F.sub_finite]
    exact F.ofRat_small (M - m) (by rw [abs_of_nonneg hdpos.le]; exact hbound)
  have hcondP : ¬(F.lt (F.abs (F.finite (M - m))) epsF = true) := by
    simp [F.abs, F.lt, epsF, not_lt.2 hrange]
  have hmain : normalize_metric_series ((q0 :: rest).map F.finite)
      = (q0 :: rest).map (fun v => F.finite ((v - m) / (M - m))) := by
    simp only [normalize_metric_series, if_neg hne, hminf, hmaxf, if_neg hcondP,
      hsubMm, List.map_map]
    refine List.map_congr_left ?_
    intro a ha
    have hma : m ≤ a := hmle a ha
    have haM : a ≤ M := hMge a ha
    show F.div (F.sub (F.finite a) (F.finite m)) (F.finite (M - m)) = _
    rw [F.sub_finite,
      F.ofRat_small (a - m) (by
        rw [abs_of_nonneg (sub_nonneg.2 hma)]
        exact le_trans (sub_le_sub_right haM m) hbound),
      F.div_finite_small (a - m) (M - m) hd (by
        rw [abs_of_nonneg (div_nonneg (sub_nonneg.2 hma) hdpos.le)]
        exact le_trans ((div_le_one hdpos).2 (sub_le_sub_right haM m))
          (by norm_num [maxF]))]
  refine ⟨hmain, ?_, ?_, ?_, ?_, ?_, ?_⟩
  · rw [hmain, List.length_map]
  · intro x hx
    rw [hmain] at hx
    obtain ⟨v, hv, rfl⟩ := List.mem_map.1 hx
    exact ⟨(v - m) / (M - m), rfl,
      div_nonneg (sub_nonneg.2 (hmle v hv)) hdpos.le,
      (div_le_one hdpos).2 (sub_le_sub_right (hMge v hv) m)⟩
  · rcases foldl_min_mem q0 rest with h | h
    · exact h ▸ List.mem_cons_self q0 rest
    · exact List.mem_cons_of_mem q0 h
  · rcases foldl_max_mem q0 rest with h | h
    · exact h ▸ List.mem_cons_self q0 rest
    · exact List.mem_cons_of_mem q0 h
  · intro i hi hqi
    rw [List.getD_eq_getElem?_getD, List.getElem?_eq_getElem hi, Option.getD_some] at hqi
    rw [hmain, List.getD_eq_getElem?_getD, List.getElem?_map,
      List.getElem?_eq_getElem hi, hqi]
    simp
  · intro i hi hqi
    rw [List.getD_eq_getElem?_getD, List.getElem?_eq_getElem hi, Option.getD_some] at hqi
    rw [hmain, List.getD_eq_getElem?_getD, List.getElem?_map,
      List.getElem?_eq_getElem hi, hqi]
    simp [div_self hd]

/-- Witness for C1's amended statement at the series `[1, 2, 3]` (min `1`,
max `3`, range `2`, no overflow): the output is the element-wise transform
`[0, 1/2, 1]`. -/
theorem C1_normalize_finite_witness :
    epsQ ≤ |List.foldl Max.max (1 : ℚ) [2, 3] - List.foldl Min.min (1 : ℚ) [2, 3]|
    ∧ List.foldl Max.max (1 : ℚ) [2, 3] - List.foldl Min.min (1 : ℚ) [2, 3] ≤ maxF
    ∧ normalize_metric_series (((1 : ℚ) :: [2, 3]).map F.finite)
        = ((1 : ℚ) :: [2, 3]).map (fun v => F.finite
            ((v - List.foldl Min.min (1 : ℚ) [2, 3])
              / (List.foldl Max.max (1 : ℚ) [2, 3] - List.foldl Min.min (1 : ℚ) [2, 3]))) := by
  have h : epsQ ≤ |List.foldl Max.max (1 : ℚ) [2, 3] - List.foldl Min.min (1 : ℚ) [2, 3]| := by
    norm_num [List.foldl, epsQ, max_def, min_def]
  have hb : List.foldl Max.max (1 : ℚ) [2, 3] - List.foldl Min.min (1 : ℚ) [2, 3] ≤ maxF := by
    norm_num [List.foldl, maxF, max_def, min_def]
  exact ⟨h, hb, (C1_normalize_finite 1 [2, 3] h hb).1⟩


/-- C8 (confirmed): on a non-empty finite series whose range is below
machine epsilon — in particular a constant series — `normalize` returns the
all-zeros sequence of the input's length. -/
theorem C8_normalize_constant (q0 : ℚ) (rest : List ℚ)
    (hrange : |List.foldl Max.max q0 rest - List.foldl Min.min q0 rest| < epsQ) :
    normalize_metric_series ((q0 :: rest).map F.finite)
      = List.replicate (q0 :: rest).length (F.finite 0) := by
  have hne : (q0 :: rest).map F.finite ≠ [] := by simp
  have hminf := minFold_map_finite q0 rest
  have hmaxf := maxFold_map_finite q0 rest
  have hsub : F.sub (F.finite (List.foldl Max.max q0 rest))
      (F.finite (List.foldl Min.min q0 rest))
      = F.finite (List.foldl Max.max q0 rest - List.foldl Min.min q0 rest) := by
    rw [F.sub_finite]
    refine F.ofRat_small _ (le_trans hrange.le ?_)
    norm_num [epsQ, maxF]
  have hcond : F.lt (F.abs (F.finite
      (List.foldl Max.max q0 rest - List.foldl Min.min q0 rest))) epsF = true := by
    simp [F.abs, F.lt, epsF, hrange]
  simp only [normalize_metric_series, if_neg hne, hminf, hmaxf, hsub, if_pos hcond,
    List.length_map]

/-- Witness for C8 at the constant series `[5, 5, 5]`: the output is
`[0, 0, 0]`. -/
theorem C8_normalize_constant_witness :
    |List.foldl Max.max (5 : ℚ) [5, 5] - List.foldl Min.min (5 : ℚ) [5, 5]| < epsQ
    ∧ normalize_metric_series (((5 : ℚ) :: [5, 5]).map F.finite)
        = List.replicate ((5 : ℚ) :: [5, 5]).length (F.finite 0) := by
  have h : |List.foldl Max.max (5 : ℚ) [5, 5] - List.foldl Min.min (5 : ℚ) [5, 5]| < epsQ := by
    norm_num [List.foldl, epsQ, max_def, min_def]
  exact ⟨h, C8_normalize_constant 5 [5, 5] h⟩
